import Mathlib

/-!
Verification of the visiowings VBA synchronisation core.

The Python sources (`visiowings/vba_export.py`, `visiowings/vba_import.py`)
are shallowly embedded below.  Text is modelled as `List Char`; the Python
string primitives that the code relies on (`str.splitlines`, `str.strip`,
`str.rstrip`, `str.startswith`, `in`, `str.lower`) are reproduced over
`List Char`, including Python's multi-character line-break set.  File
systems are association lists from file name to file content, the Visio
VBA project is a list of components, and the interactive prompts are
explicit inputs.  External collaborators that live outside the sources
(the COM host, `hashlib.md5`) are modelled at their interface boundary;
each such definition carries a comment saying so.
-/

namespace Visiowings

/-- The characters on which Python's `str.splitlines` breaks a line:
`\n`, `\r` (with `\r\n` counted once), `\v`, `\f`, FS, GS, RS, NEL,
LINE SEPARATOR and PARAGRAPH SEPARATOR. -/
def isLineBreak (c : Char) : Bool :=
  c = '\n' || c = '\r' || c = '\x0b' || c = '\x0c' || c = '\x1c' ||
  c = '\x1d' || c = '\x1e' || c = '\x85' || c = '\u2028' || c = '\u2029'

/-- Python's `str.isspace` / the default strip set of `str.strip()` and
`str.rstrip()`: ASCII whitespace, the line-break characters above, `\x1f`
and the Unicode space separators. -/
def pyIsSpace (c : Char) : Bool :=
  c = ' ' || c = '\t' || isLineBreak c || c = '\x1f' || c = '\xa0' ||
  c = '\u1680' || (0x2000 ≤ c.toNat && c.toNat ≤ 0x200a) ||
  c = '\u202f' || c = '\u205f' || c = '\u3000'

/-- Python `str.startswith`: `startsW l p` holds when `p` is an initial
segment of `l`. -/
def startsW : List Char → List Char → Bool
  | _, [] => true
  | [], _ :: _ => false
  | c :: cs, p :: ps => c = p && startsW cs ps

/-- Python's substring test `p in l`. -/
def hasSub : List Char → List Char → Bool
  | [], p => startsW [] p
  | c :: rest, p => startsW (c :: rest) p || hasSub rest p

/-- Python `str.lower` (character-wise, as used on ASCII responses and
module names). -/
def lowerStr (l : List Char) : List Char := l.map Char.toLower

/-- Python `str.lstrip()` (no argument: strips whitespace). -/
def pyLstrip (l : List Char) : List Char := l.dropWhile pyIsSpace

/-- Python `str.rstrip()` (no argument: strips whitespace). -/
def pyRstrip (l : List Char) : List Char := (l.reverse.dropWhile pyIsSpace).reverse

/-- Python `str.strip()`. -/
def pyStrip (l : List Char) : List Char := pyRstrip (pyLstrip l)

/-- Worker for `pySplitlines`; `acc` holds the current line reversed and
`skipNl` records that the previous character was a `\r`, so that a
directly following `\n` belongs to the same line break. -/
def splitGo : Bool → List Char → List Char → List (List Char)
  | _, [], acc => if acc.isEmpty then [] else [acc.reverse]
  | skipNl, c :: rest, acc =>
    if skipNl && c = '\n' then splitGo false rest acc
    else if c = '\r' then acc.reverse :: splitGo true rest []
    else if isLineBreak c then acc.reverse :: splitGo false rest []
    else splitGo false rest (c :: acc)

/-- Python `str.splitlines()` (without `keepends`). -/
def pySplitlines (t : List Char) : List (List Char) := splitGo false t []

/-- `'\n'.join(lines)`. -/
def joinNL : List (List Char) → List Char
  | [] => []
  | [l] => l
  | l :: m :: rest => l ++ '\n' :: joinNL (m :: rest)

/-- The last character of a text, when there is one. -/
def lastChar? (t : List Char) : Option Char := t.reverse.head?

/-- `while lines and p(lines[0]): lines.pop(0)`. -/
def popLeadIf (p : List Char → Bool) : List (List Char) → List (List Char)
  | [] => []
  | l :: ls => if p l then popLeadIf p ls else l :: ls

/-- `while lines and p(lines[-1]): lines.pop()`. -/
def popTrailIf (p : List Char → Bool) : List (List Char) → List (List Char)
  | [] => []
  | l :: ls =>
    if (popTrailIf p ls).isEmpty then (if p l then [] else [l])
    else l :: popTrailIf p ls

/-- A line that is the empty string (Python falsiness of a string). -/
def isEmptyLine (l : List Char) : Bool := l.isEmpty

/-- A line whose `strip()` is empty. -/
def isBlankLine (l : List Char) : Bool := (pyStrip l).isEmpty

/-- `VisioVBAExporter._normalize_content`: split into lines, right-strip
each line, drop leading and trailing empty lines, rejoin with `\n`. -/
def normalizeContent (t : List Char) : List Char :=
  joinNL (popTrailIf isEmptyLine (popLeadIf isEmptyLine ((pySplitlines t).map pyRstrip)))

/-- The comparison of `VisioVBAExporter._compare_module_content`:
`are_different = local_normalized != visio_normalized`. -/
def moduleDiffer (a b : List Char) : Bool := decide (¬ normalizeContent a = normalizeContent b)

/-- The line filter of `VisioVBAImporter._strip_vba_header`, with the
`started` flag.  Lines starting with `VERSION`, `Begin`, `End` or
`MultiUse` are dropped; `Attribute ` lines are kept only when they
contain `VB_Name`; comment lines are kept anywhere; any other line sets
`started` once non-blank, and is kept once `started` holds. -/
def stripKeepFilter (started : Bool) : List (List Char) → List (List Char)
  | [] => []
  | l :: ls =>
    if startsW l ("VERSION".toList) || startsW l ("Begin".toList) ||
       startsW l ("End".toList) || startsW l ("MultiUse".toList) then
      stripKeepFilter started ls
    else if startsW l ("Attribute ".toList) then
      if hasSub l ("VB_Name".toList) then l :: stripKeepFilter started ls
      else stripKeepFilter started ls
    else if startsW (pyStrip l) ['\''] then l :: stripKeepFilter started ls
    else if started || !(pyStrip l).isEmpty then
      l :: stripKeepFilter (started || !(pyStrip l).isEmpty) ls
    else stripKeepFilter (started || !(pyStrip l).isEmpty) ls

/-- The line list produced by `VisioVBAImporter._strip_vba_header`
before joining: filter, then pop leading and trailing blank lines. -/
def stripLines (t : List Char) : List (List Char) :=
  popTrailIf isBlankLine (popLeadIf isBlankLine (stripKeepFilter false (pySplitlines t)))

/-- `VisioVBAImporter._strip_vba_header` as a text transform. -/
def stripVbaHeader (t : List Char) : List Char := joinNL (stripLines t)

/-- The line filter of `VisioVBAExporter._strip_vba_header_file`, with
the `in_header` flag: drops `VERSION` lines, `Begin `/`End` lines that
contain `\x7b` or are blank, `MultiUse` lines and non-`VB_Name`
`Attribute` lines; keeps every other line once `in_header` is off (any
non-blank line turns it off) and keeps comment lines always. -/
def stripFileFilter (inHeader : Bool) : List (List Char) → List (List Char)
  | [] => []
  | l :: ls =>
    if startsW l ("VERSION".toList) then stripFileFilter inHeader ls
    else if (startsW l ("Begin ".toList) || startsW l ("End".toList)) &&
            (l.contains '\x7b' || (pyStrip l).isEmpty) then
      stripFileFilter inHeader ls
    else if startsW l ("MultiUse".toList) then stripFileFilter inHeader ls
    else if startsW l ("Attribute ".toList) then
      if hasSub l ("VB_Name".toList) then l :: stripFileFilter inHeader ls
      else stripFileFilter inHeader ls
    else
      let inHeader2 := if (pyStrip l).isEmpty then inHeader else false
      if !inHeader2 || startsW (pyStrip l) ['\''] then l :: stripFileFilter inHeader2 ls
      else stripFileFilter inHeader2 ls

/-- `VisioVBAExporter._strip_vba_header_file` as a text transform (the
function reads the file in cp1252 and rewrites it in UTF-8; character
contents are untouched by those codecs at this level of modelling). -/
def stripVbaHeaderFileText (t : List Char) : List Char :=
  joinNL (popLeadIf isBlankLine (stripFileFilter true (pySplitlines t)))

/-- The literal part of the synthesized name attribute line, up to the
opening quote. -/
def attrLit : List Char := "Attribute VB_Name = \"".toList

/-- The synthesized name attribute line `Attribute VB_Name = "<name>"`. -/
def attrLineOf (name : List Char) : List Char := attrLit ++ (name ++ ['"'])

/-- The literal line `Option Explicit`. -/
def oeLine : List Char := "Option Explicit".toList

/-- The `header` string of `_repair_vba_module_file`:
`Attribute VB_Name = "<name>"\nOption Explicit\n`. -/
def vbHeaderOf (name : List Char) : List Char := attrLineOf name ++ '\n' :: (oeLine ++ ['\n'])

/-- The `dummy_sub` string of `_repair_vba_module_file`. -/
def dummySub : List Char := "Sub Dummy()\nEnd Sub\n".toList

/-- The trailing-newline guarantee at the end of
`_repair_vba_module_file`: `if text and not text.endswith("\\n")`. -/
def ensureNL (text : List Char) : List Char :=
  if !text.isEmpty && !(decide (lastChar? text = some '\n')) then text ++ ['\n'] else text

/-- `VisioVBAImporter._repair_vba_module_file` as a pure transform of the
file content (the restore direction of the header normalizer): strip the
header, re-add a synthesized header when the name attribute is missing,
fall back to a placeholder routine for blank bodies, and guarantee a
trailing newline (`ensureNL`). -/
def repairText (t : List Char) (name : List Char) : List Char :=
  ensureNL
    (if (pyStrip (stripVbaHeader t)).isEmpty then vbHeaderOf name ++ '\n' :: dummySub
     else if !(hasSub t ("Attribute VB_Name".toList)) then vbHeaderOf name ++ stripVbaHeader t
     else stripVbaHeader t)

/-- A component of a VBA project: `comp.Name`, `comp.Type` (1 = standard
module, 2 = class, 3 = form, 100 = document module) and the text held by
`comp.CodeModule` (`[]` when `CountOfLines == 0`). -/
structure VComponent where
  name : List Char
  ctype : Nat
  code : List Char
deriving DecidableEq

/-- The lookup loop of `import_module`:
`for comp in vb_project.VBComponents: if comp.Name == module_name: ...`. -/
def findComponent : List VComponent → List Char → Option VComponent
  | [], _ => none
  | c :: rest, n => if c.name = n then some c else findComponent rest n

/-- `vb_project.VBComponents.Remove(component)` for the component found
by `findComponent`: removes the first component with that name. -/
def removeComponent : List VComponent → List Char → List VComponent
  | [], _ => []
  | c :: rest, n => if c.name = n then rest else c :: removeComponent rest n

/-- `cm.DeleteLines(1, cm.CountOfLines)` followed by
`cm.AddFromString(code)` on the first component with the given name. -/
def setComponentCode : List VComponent → List Char → List Char → List VComponent
  | [], _, _ => []
  | c :: rest, n, v =>
    if c.name = n then ⟨c.name, c.ctype, v⟩ :: rest else c :: setComponentCode rest n v

/-- Modelled from the spec: `ComponentStore.importFile` — the host-side
`VBComponents.Import(path)` primitive is external to the sources.  Per
the spec's interface section and its import scenario, it creates a
Module-kind component named after the imported file whose body is the
file's stored content. -/
def hostImportFile (stem content : List Char) : VComponent := ⟨stem, 1, content⟩

/-- `VisioVBAImporter.import_module` on a file with stem `stem` and
stored content `fileContent`, against the project `comps`.  Returns the
reported result, the project afterwards, and the local file's content
afterwards (the file is rewritten by `_repair_vba_module_file` before
the host is consulted).  `force` is `--force` (`force_document`).
The import path contains no resolver interaction: no branch reads
input. -/
def importModule (force : Bool) (stem fileContent : List Char) (comps : List VComponent) :
    Bool × List VComponent × List Char :=
  let repaired := repairText fileContent stem
  match findComponent comps stem with
  | some c =>
    if c.ctype = 100 then
      if force then
        let code := stripVbaHeader repaired
        let newCode := if (pyStrip code).isEmpty then [] else code
        (true, setComponentCode comps stem newCode, repaired)
      else (false, comps, repaired)
    else (true, removeComponent comps stem ++ [hostImportFile stem repaired], repaired)
  | none => (true, comps ++ [hostImportFile stem repaired], repaired)

/-- The `code_parts` list of `VisioVBAExporter._module_content_hash`:
`f"{comp.Name}:{code}"` for every component whose code module has at
least one line. -/
def hashPartsOf : List VComponent → List (List Char)
  | [] => []
  | c :: rest =>
    if c.code.isEmpty then hashPartsOf rest
    else (c.name ++ ':' :: c.code) :: hashPartsOf rest

/-- `''.join(parts)`. -/
def joinParts : List (List Char) → List Char
  | [] => []
  | p :: rest => p ++ joinParts rest

/-- The `hash_input` string fed to the digest in `_module_content_hash`. -/
def hashInputOf (comps : List VComponent) : List Char := joinParts (hashPartsOf comps)

/-- Modelled at the interface boundary: `hashlib.md5(...).hexdigest()` is
library code outside the sources and is used only for equality tests.
It is represented as an injective tag of its input, so digest equality
coincides with digest-input equality (the spec itself only asks for a
"collision-resistant-enough" digest used for cheap equality). -/
def digestModel (s : List Char) : List Char := '#' :: s

/-- `VisioVBAExporter._module_content_hash`. -/
def moduleContentHash (comps : List VComponent) : List Char := digestModel (hashInputOf comps)

/-- The fingerprint formula in the words of the specification (for
comparison with `moduleContentHash`): concatenate `name + ":" + rawBody`
over EVERY component in enumeration order, then digest. -/
def specHashInput (comps : List VComponent) : List Char :=
  joinParts (comps.map (fun c => c.name ++ ':' :: c.code))

/-- An association list keyed by text (used for a per-document folder's
files and for the per-folder hash map); lookup finds the first match. -/
def alLookup {α : Type} : List (List Char × α) → List Char → Option α
  | [], _ => none
  | e :: rest, k => if e.1 = k then some e.2 else alLookup rest k

/-- A per-document folder of the local file system: file name to file
content. -/
abbrev Fs : Type := List (List Char × List Char)

/-- Drop every entry with the given key. -/
def fsErase : Fs → List Char → Fs
  | [], _ => []
  | e :: rest, f => if e.1 = f then fsErase rest f else e :: fsErase rest f

/-- Write a file: the path now holds exactly this content. -/
def fsWrite (fs : Fs) (f v : List Char) : Fs := (f, v) :: fsErase fs f

/-- `ext_map = {1: '.bas', 2: '.cls', 3: '.frm', 100: '.cls'}` with
default `'.bas'`. -/
def extOf (t : Nat) : List Char :=
  if t = 1 then ".bas".toList
  else if t = 2 then ".cls".toList
  else if t = 3 then ".frm".toList
  else if t = 100 then ".cls".toList
  else ".bas".toList

/-- `component.Type in [1, 2, 100]`. -/
def isCodeType (t : Nat) : Bool := t = 1 || t = 2 || t = 100

/-- `file_name = f"{component.Name}{ext}"`. -/
def vcFileName (c : VComponent) : List Char := c.name ++ extOf c.ctype

/-- Python `str.endswith`. -/
def endsW (l s : List Char) : Bool := startsW l.reverse s.reverse

/-- Membership in the glob `*.bas` + `*.cls` + `*.frm`. -/
def vbaExtFile (f : List Char) : Bool :=
  endsW f (".bas".toList) || endsW f (".cls".toList) || endsW f (".frm".toList)

/-- `pathlib.Path.stem` for a plain file name: the name up to the last
dot (the whole name when there is no dot). -/
def fileStem (f : List Char) : List Char :=
  match f.reverse.dropWhile (fun c => !(c = '.')) with
  | [] => f
  | _ :: rest => rest.reverse

/-- A local file that `_sync_deleted_modules` flags: a `*.bas`/`*.cls`/
`*.frm` file whose lower-cased stem is not among the lower-cased
component names. -/
def orphanFile (names : List (List Char)) (f : List Char) : Bool :=
  vbaExtFile f && !(decide (lowerStr (fileStem f) ∈ names))

/-- Deleting the orphaned files: the `d` answer of
`_sync_deleted_modules`. -/
def fsDropOrphans (names : List (List Char)) (fs : Fs) : Fs :=
  fs.filter (fun e => !(orphanFile names e.1))

/-- `VisioVBAExporter._sync_deleted_modules` on the document folder:
collect orphaned local files; when some exist, `d` deletes them,
`i` imports them back into the host (not a file-system change), and
anything else — the default — keeps them. -/
def syncDeletedModules (comps : List VComponent) (fs : Fs) (resp : List Char) : Fs :=
  if fs.any (fun e => orphanFile (comps.map (fun c => lowerStr c.name)) e.1) then
    if lowerStr (pyStrip resp) = "d".toList then
      fsDropOrphans (comps.map (fun c => lowerStr c.name)) fs
    else fs
  else fs

/-- The `files_with_changes` keys of `_export_document_modules`: file
names of components of code type whose local file exists and whose
normalized content differs from the normalized host content. -/
def changedFiles : List VComponent → Fs → List (List Char)
  | [], _ => []
  | c :: rest, fs =>
    if (alLookup fs (vcFileName c)).isSome && isCodeType c.ctype &&
        moduleDiffer ((alLookup fs (vcFileName c)).getD []) c.code then
      vcFileName c :: changedFiles rest fs
    else changedFiles rest fs

/-- The four outcomes of the `Choose action (o/s/i/C)` prompt. -/
inductive MainDecision where
  | overwriteAll
  | skipAll
  | interactive
  | cancel
deriving DecidableEq

/-- `response = input(...).strip().lower()`, compared against `o`, `s`,
`i`; everything else — including an empty default — cancels. -/
def parseMain (s : List Char) : MainDecision :=
  let t := lowerStr (pyStrip s)
  if t = "o".toList then .overwriteAll
  else if t = "s".toList then .skipAll
  else if t = "i".toList then .interactive
  else .cancel

/-- `choice = input(...).strip().lower(); choice in ('y', 'yes')` for the
per-file `Overwrite? (y/N)` prompt. -/
def parseYes (s : List Char) : Bool :=
  let t := lowerStr (pyStrip s)
  t = "y".toList || t = "yes".toList

/-- The console answers an export pass can consume: the main conflict
prompt, the per-file answers of interactive mode, and the
deleted-modules prompt. -/
structure ResolverInput where
  mainResponse : List Char
  perFile : List Char → List Char
  deleteResponse : List Char

/-- The `files_to_skip` set of `_export_document_modules` (empty when no
local changes were detected; the cancel case returns before this set is
used). -/
def filesToSkip (comps : List VComponent) (fs : Fs) (inp : ResolverInput) : List (List Char) :=
  let changed := changedFiles comps fs
  if changed.isEmpty then []
  else
    match parseMain inp.mainResponse with
    | .overwriteAll => []
    | .skipAll => changed
    | .interactive => changed.filter (fun f => !(parseYes (inp.perFile f)))
    | .cancel => []

/-- The export loop of `_export_document_modules`: for every component
not in the skip set, `component.Export(file_path)` (modelled by the
external `hE`, `none` meaning the COM call raised) writes the raw text,
which is then header-stripped for code types.  Returns the collected
file names, the folder afterwards, and whether the loop completed; on a
raise the collected list is discarded by the caller. -/
def exportLoop (hE : VComponent → Option (List Char)) (skip : List (List Char)) :
    List VComponent → Fs → List (List Char) × Fs × Bool
  | [], fs => ([], fs, true)
  | c :: rest, fs =>
    if vcFileName c ∈ skip then exportLoop hE skip rest fs
    else
      match hE c with
      | none => ([], fs, false)
      | some raw =>
        let content := if isCodeType c.ctype then stripVbaHeaderFileText raw else raw
        let r := exportLoop hE skip rest (fsWrite fs (vcFileName c) content)
        (vcFileName c :: r.1, r.2.1, r.2.2)

/-- `VisioVBAExporter._export_document_modules` for one document:
hash first and stop early when the stored hash matches (still running
the deleted-modules check); otherwise detect local changes, consult the
prompt (cancel aborts the pass with nothing written), run the export
loop, and finish with the deleted-modules check.  Any exception in the
loop is caught by the function-level handler, which reports and returns
`([], None)`. -/
def exportDocModules (hE : VComponent → Option (List Char)) (comps : List VComponent)
    (fs : Fs) (lastHash : Option (List Char)) (inp : ResolverInput) :
    List (List Char) × Option (List Char) × Fs :=
  let currentHash := moduleContentHash comps
  if lastHash = some currentHash then
    ([], some currentHash, syncDeletedModules comps fs inp.deleteResponse)
  else if ¬ (changedFiles comps fs).isEmpty = true ∧ parseMain inp.mainResponse = .cancel then
    ([], none, fs)
  else
    let r := exportLoop hE (filesToSkip comps fs inp) comps fs
    if r.2.2 then (r.1, some currentHash, syncDeletedModules comps r.2.1 inp.deleteResponse)
    else ([], none, r.2.1)

/-- One document as `export_modules` sees it: its folder name, its VBA
components and its folder of local files. -/
structure DocState where
  folder : List Char
  comps : List VComponent
  fs : Fs
deriving DecidableEq

/-- The outcome of one document's pass inside `export_modules`. -/
structure DocResult where
  folder : List Char
  files : List (List Char)
  hash : Option (List Char)
  fsOut : Fs
deriving DecidableEq

/-- One iteration of the document loop of
`VisioVBAExporter.export_modules`: look up `last_hashes` for the folder
and run `_export_document_modules` with that document's console
answers. -/
def docPass (hE : VComponent → Option (List Char)) (lastHashes : List (List Char × List Char))
    (inputs : List Char → ResolverInput) (d : DocState) : DocResult :=
  let r := exportDocModules hE d.comps d.fs (alLookup lastHashes d.folder) (inputs d.folder)
  ⟨d.folder, r.1, r.2.1, r.2.2⟩

/-- The document loop of `export_modules`. -/
def exportModulesResults (hE : VComponent → Option (List Char)) (docs : List DocState)
    (lastHashes : List (List Char × List Char)) (inputs : List Char → ResolverInput) :
    List DocResult :=
  docs.map (docPass hE lastHashes inputs)

/-- The `all_hashes` dictionary built by `export_modules`: a folder gets
an entry only when `exported_files or current_hash` is truthy. -/
def allHashesOf (rs : List DocResult) : List (List Char × Option (List Char)) :=
  (rs.filter (fun r => !r.files.isEmpty || !r.hash.isNone)).map (fun r => (r.folder, r.hash))

/-- The shape invariant of lines kept by `stripKeepFilter`: they start
with none of the dropped keywords, and an `Attribute ` line among them
carries `VB_Name`. -/
def keepInv (l : List Char) : Prop :=
  startsW l ("VERSION".toList) = false ∧ startsW l ("Begin".toList) = false ∧
  startsW l ("End".toList) = false ∧ startsW l ("MultiUse".toList) = false ∧
  (startsW l ("Attribute ".toList) = true → hasSub l ("VB_Name".toList) = true)

/-- A console that always answers with the empty default. -/
def emptyInput : ResolverInput := ⟨[], fun _ => [], []⟩

/-- A host on which `component.Export` always succeeds with a fixed raw
text. -/
def hostExportOk : VComponent → Option (List Char) := fun _ => some ("z = 3".toList)

/-- A host on which exporting the component named `A` raises and every
other export succeeds. -/
def hostExportFailA : VComponent → Option (List Char) :=
  fun c => if c.name = "A".toList then none else some ("y = 2".toList)

/-- Concrete components and folders used to instantiate the theorems. -/
def compA : VComponent := ⟨"A".toList, 1, "x = 1".toList⟩

def compB : VComponent := ⟨"B".toList, 1, "y = 2".toList⟩

def compM : VComponent := ⟨"M".toList, 1, "a = 1".toList⟩

def compForm : VComponent := ⟨"F".toList, 3, "y = 2".toList⟩

def compOldM : VComponent := ⟨"M".toList, 1, "old = 1".toList⟩

def compDoc : VComponent := ⟨"ThisDocument".toList, 100, "a = 1".toList⟩

def fsM : Fs := [("M.bas".toList, "b = 2".toList)]

def fsForm : Fs := [("F.frm".toList, "x = 1".toList)]

def docCancel : DocState := ⟨"doc1".toList, [compM], fsM⟩

def docOther : DocState := ⟨"doc2".toList, [compB], []⟩

section Lemmas

theorem startsW_nil_pat (x : List Char) : startsW x [] = true := by
  cases x <;> rfl

theorem startsW_cons_cons (c p : Char) (cs ps : List Char) :
    startsW (c :: cs) (p :: ps) = (decide (c = p) && startsW cs ps) := rfl

theorem startsW_nil_cons (p : Char) (ps : List Char) : startsW [] (p :: ps) = false := rfl

theorem startsW_self (x : List Char) : startsW x x = true := by
  induction x with
  | nil => rfl
  | cons c cs ih => simp [startsW_cons_cons, ih]

theorem startsW_append_left (p x y : List Char) (h : p.length ≤ x.length) :
    startsW (x ++ y) p = startsW x p := by
  induction p generalizing x with
  | nil => simp [startsW_nil_pat]
  | cons q qs ih =>
    cases x with
    | nil => simp at h
    | cons c cs =>
      simp only [List.cons_append, startsW_cons_cons]
      have h2 : qs.length ≤ cs.length := by simpa using h
      rw [ih cs h2]

theorem startsW_true_append (p x y : List Char) (h : startsW x p = true) :
    startsW (x ++ y) p = true := by
  induction p generalizing x with
  | nil => simp [startsW_nil_pat]
  | cons q qs ih =>
    cases x with
    | nil => simp [startsW_nil_cons] at h
    | cons c cs =>
      simp only [startsW_cons_cons, Bool.and_eq_true] at h
      simp only [List.cons_append, startsW_cons_cons, Bool.and_eq_true]
      exact ⟨h.1, ih cs h.2⟩

theorem hasSub_nil_pat (x : List Char) : hasSub x [] = true := by
  cases x <;> simp [hasSub, startsW_nil_pat]

theorem hasSub_append_left (p x y : List Char) (h : hasSub x p = true) :
    hasSub (x ++ y) p = true := by
  induction x with
  | nil =>
    simp only [hasSub] at h
    cases p with
    | nil => simp [hasSub_nil_pat]
    | cons q qs => simp [startsW_nil_cons] at h
  | cons c cs ih =>
    simp only [hasSub, Bool.or_eq_true] at h
    simp only [List.cons_append, hasSub, Bool.or_eq_true]
    rcases h with h | h
    · exact Or.inl (startsW_true_append _ _ _ h)
    · exact Or.inr (ih h)

theorem dropWhile_idem (p : Char → Bool) (l : List Char) :
    List.dropWhile p (List.dropWhile p l) = List.dropWhile p l := by
  induction l with
  | nil => rfl
  | cons c cs ih =>
    by_cases h : p c = true
    · simp [List.dropWhile, h, ih]
    · simp only [Bool.not_eq_true] at h
      simp [List.dropWhile, h]

theorem pyRstrip_idem (l : List Char) : pyRstrip (pyRstrip l) = pyRstrip l := by
  simp [pyRstrip, List.reverse_reverse, dropWhile_idem]

theorem mem_dropWhile (p : Char → Bool) (l : List Char) (c : Char)
    (h : c ∈ List.dropWhile p l) : c ∈ l := by
  induction l with
  | nil => simp [List.dropWhile] at h
  | cons d ds ih =>
    by_cases hd : p d = true
    · simp only [List.dropWhile, hd] at h
      exact List.mem_cons_of_mem _ (ih h)
    · simp only [Bool.not_eq_true] at hd
      simp only [List.dropWhile, hd] at h
      exact h

theorem mem_dropWhile_of_not (p : Char → Bool) (l : List Char) (c : Char)
    (hm : c ∈ l) (hc : p c = false) : c ∈ List.dropWhile p l := by
  induction l with
  | nil => simp at hm
  | cons d ds ih =>
    by_cases hd : p d = true
    · simp only [List.dropWhile, hd]
      rcases List.mem_cons.1 hm with rfl | hm2
      · rw [hd] at hc; cases hc
      · exact ih hm2
    · simp only [Bool.not_eq_true] at hd
      simp only [List.dropWhile, hd]
      exact hm

theorem mem_pyRstrip (l : List Char) (c : Char) (h : c ∈ pyRstrip l) : c ∈ l := by
  have h1 : c ∈ l.reverse.dropWhile pyIsSpace := List.mem_reverse.1 h
  exact List.mem_reverse.1 (mem_dropWhile _ _ _ h1)

theorem mem_pyRstrip_of_not (l : List Char) (c : Char) (hm : c ∈ l)
    (hc : pyIsSpace c = false) : c ∈ pyRstrip l := by
  have h1 : c ∈ l.reverse := List.mem_reverse.2 hm
  exact List.mem_reverse.2 (mem_dropWhile_of_not pyIsSpace l.reverse c h1 hc)

theorem mem_pyStrip (l : List Char) (c : Char) (h : c ∈ pyStrip l) : c ∈ l := by
  have h1 := mem_pyRstrip _ _ h
  exact mem_dropWhile _ _ _ h1

theorem pyStrip_ne_nil (l : List Char) (c : Char) (hm : c ∈ l) (hc : pyIsSpace c = false) :
    ¬ pyStrip l = [] := by
  intro he
  have h1 : c ∈ pyLstrip l := mem_dropWhile_of_not _ _ _ hm hc
  have h2 : c ∈ pyStrip l := mem_pyRstrip_of_not _ _ h1 hc
  rw [he] at h2
  simp at h2

theorem splitGo_nil (b : Bool) (acc : List Char) :
    splitGo b [] acc = if acc.isEmpty then [] else [acc.reverse] := rfl

theorem splitGo_cons (b : Bool) (c : Char) (t acc : List Char) :
    splitGo b (c :: t) acc =
      if b && c = '\n' then splitGo false t acc
      else if c = '\r' then acc.reverse :: splitGo true t []
      else if isLineBreak c then acc.reverse :: splitGo false t []
      else splitGo false t (c :: acc) := rfl

theorem splitGo_cons_not_break (c : Char) (t acc : List Char) (h : isLineBreak c = false) :
    splitGo false (c :: t) acc = splitGo false t (c :: acc) := by
  have hr : ¬ c = '\r' := by
    intro he
    subst he
    simp [isLineBreak] at h
  rw [splitGo_cons]
  simp [hr, h]

theorem splitGo_cons_break (c : Char) (t acc : List Char) (h : isLineBreak c = true)
    (hr : ¬ c = '\r') : splitGo false (c :: t) acc = acc.reverse :: splitGo false t [] := by
  rw [splitGo_cons]
  simp [hr, h]

theorem splitGo_append_nl (l rest acc : List Char) (hl : ∀ c ∈ l, isLineBreak c = false) :
    splitGo false (l ++ '\n' :: rest) acc = (acc.reverse ++ l) :: splitGo false rest [] := by
  induction l generalizing acc with
  | nil =>
    simp only [List.nil_append]
    rw [splitGo_cons_break '\n' rest acc (by decide) (by decide)]
    simp
  | cons a l2 ih =>
    have ha := hl a (List.mem_cons_self a l2)
    have hl2 : ∀ c ∈ l2, isLineBreak c = false := fun c hc => hl c (List.mem_cons_of_mem a hc)
    simp only [List.cons_append]
    rw [splitGo_cons_not_break a _ acc ha, ih (a :: acc) hl2]
    simp

theorem splitGo_noBreak (l acc : List Char) (hl : ∀ c ∈ l, isLineBreak c = false) :
    splitGo false l acc = if (acc.reverse ++ l).isEmpty then [] else [acc.reverse ++ l] := by
  induction l generalizing acc with
  | nil => cases acc <;> simp [splitGo_nil]
  | cons a l2 ih =>
    have ha := hl a (List.mem_cons_self a l2)
    have hl2 : ∀ c ∈ l2, isLineBreak c = false := fun c hc => hl c (List.mem_cons_of_mem a hc)
    rw [splitGo_cons_not_break a _ acc ha, ih (a :: acc) hl2]
    simp

theorem noBreak_of_mem_splitGo (t : List Char) : ∀ (b : Bool) (acc : List Char),
    (∀ c ∈ acc, isLineBreak c = false) →
    ∀ l ∈ splitGo b t acc, ∀ c ∈ l, isLineBreak c = false := by
  induction t with
  | nil =>
    intro b acc hacc l hl c hc
    rw [splitGo_nil] at hl
    split at hl
    · simp at hl
    · simp at hl
      subst hl
      exact hacc c (List.mem_reverse.1 hc)
  | cons a t2 ih =>
    intro b acc hacc l hl d hd
    rw [splitGo_cons] at hl
    split at hl
    · exact ih false acc hacc l hl d hd
    · split at hl
      · rcases List.mem_cons.1 hl with rfl | h2
        · exact hacc d (List.mem_reverse.1 hd)
        · exact ih true [] (by intro x hx; simp at hx) l h2 d hd
      · split at hl
        · rcases List.mem_cons.1 hl with rfl | h2
          · exact hacc d (List.mem_reverse.1 hd)
          · exact ih false [] (by intro x hx; simp at hx) l h2 d hd
        · rename_i hc1 hc2 hc3
          refine ih false (a :: acc) ?_ l hl d hd
          intro x hx
          rcases List.mem_cons.1 hx with rfl | hx2
          · simpa using hc3
          · exact hacc x hx2

theorem noBreak_of_mem_pySplitlines (t : List Char) (l : List Char)
    (h : l ∈ pySplitlines t) : ∀ c ∈ l, isLineBreak c = false := by
  refine noBreak_of_mem_splitGo t false [] ?_ l h
  intro c hc
  simp at hc

theorem joinNL_cons_cons (a b : List Char) (L : List (List Char)) :
    joinNL (a :: b :: L) = a ++ '\n' :: joinNL (b :: L) := rfl

theorem splitGo_joinNL (L : List (List Char))
    (hL : ∀ l ∈ L, ∀ c ∈ l, isLineBreak c = false)
    (hlast : ¬ L.getLast? = some []) :
    pySplitlines (joinNL L) = L := by
  induction L with
  | nil => simp [pySplitlines, joinNL, splitGo_nil]
  | cons a L2 ih =>
    cases L2 with
    | nil =>
      have ha : ∀ c ∈ a, isLineBreak c = false := hL a (List.mem_cons_self a [])
      have hne : ¬ a = [] := by
        intro he
        exact hlast (by simp [he])
      rw [pySplitlines]
      show splitGo false (joinNL [a]) [] = [a]
      have : joinNL [a] = a := rfl
      rw [this, splitGo_noBreak a [] ha]
      simp [hne]
    | cons b L3 =>
      have ha : ∀ c ∈ a, isLineBreak c = false := hL a (List.mem_cons_self a (b :: L3))
      rw [joinNL_cons_cons, pySplitlines, splitGo_append_nl a _ [] ha]
      simp only [List.reverse_nil, List.nil_append]
      congr 1
      refine ih (fun l hl => hL l (List.mem_cons_of_mem a hl)) ?_
      rw [List.getLast?_cons_cons] at hlast
      exact hlast

theorem splitGo_joinNL_nl (L : List (List Char))
    (hL : ∀ l ∈ L, ∀ c ∈ l, isLineBreak c = false)
    (hne : ¬ L = []) :
    pySplitlines (joinNL L ++ ['\n']) = L := by
  induction L with
  | nil => exact absurd rfl hne
  | cons a L2 ih =>
    cases L2 with
    | nil =>
      have ha : ∀ c ∈ a, isLineBreak c = false := hL a (List.mem_cons_self a [])
      have : joinNL [a] = a := rfl
      rw [pySplitlines, this]
      have h2 : a ++ ['\n'] = a ++ '\n' :: [] := rfl
      rw [h2, splitGo_append_nl a [] [] ha]
      simp [splitGo_nil]
    | cons b L3 =>
      have ha : ∀ c ∈ a, isLineBreak c = false := hL a (List.mem_cons_self a (b :: L3))
      rw [joinNL_cons_cons, pySplitlines]
      have h2 : (a ++ '\n' :: joinNL (b :: L3)) ++ ['\n'] =
          a ++ '\n' :: (joinNL (b :: L3) ++ ['\n']) := by
        simp
      rw [h2, splitGo_append_nl a _ [] ha]
      simp only [List.reverse_nil, List.nil_append]
      congr 1
      exact ih (fun l hl => hL l (List.mem_cons_of_mem a hl)) (by simp)

theorem lastChar?_append (a b : List Char) (hb : ¬ b = []) :
    lastChar? (a ++ b) = lastChar? b := by
  cases hb2 : b.reverse with
  | nil =>
    rw [List.reverse_eq_nil_iff] at hb2
    exact absurd hb2 hb
  | cons c t => simp [lastChar?, List.reverse_append, hb2]

theorem joinNL_ne_nil (L : List (List Char)) (l : List Char)
    (hlast : L.getLast? = some l) (hne : ¬ l = []) : ¬ joinNL L = [] := by
  cases L with
  | nil => simp at hlast
  | cons a L2 =>
    cases L2 with
    | nil =>
      simp at hlast
      subst hlast
      simpa [joinNL] using hne
    | cons b L3 =>
      rw [joinNL_cons_cons]
      simp

theorem lastChar?_joinNL (L : List (List Char)) (l : List Char)
    (hlast : L.getLast? = some l) (hne : ¬ l = []) :
    lastChar? (joinNL L) = lastChar? l := by
  induction L with
  | nil => simp at hlast
  | cons a L2 ih =>
    cases L2 with
    | nil =>
      simp at hlast
      subst hlast
      rfl
    | cons b L3 =>
      rw [List.getLast?_cons_cons] at hlast
      have hjoin : ¬ joinNL (b :: L3) = [] := joinNL_ne_nil _ _ hlast hne
      rw [joinNL_cons_cons, lastChar?_append a _ (by simp),
          show ('\n' :: joinNL (b :: L3)) = ['\n'] ++ joinNL (b :: L3) from rfl,
          lastChar?_append ['\n'] _ hjoin]
      exact ih hlast

theorem lastChar?_ne_nl (l : List Char) (hl : ∀ c ∈ l, isLineBreak c = false)
    (hne : ¬ l = []) : ¬ lastChar? l = some '\n' := by
  intro h
  have hmem : '\n' ∈ l.reverse := by
    cases hrev : l.reverse with
    | nil => simp [lastChar?, hrev] at h
    | cons c t =>
      simp [lastChar?, hrev] at h
      subst h
      exact List.mem_cons_self _ _
  have h2 := hl '\n' (List.mem_reverse.1 hmem)
  simp [isLineBreak] at h2

theorem popLeadIf_mem (p : List Char → Bool) (L : List (List Char)) (l : List Char)
    (h : l ∈ popLeadIf p L) : l ∈ L := by
  induction L with
  | nil => simpa [popLeadIf] using h
  | cons a t ih =>
    simp only [popLeadIf] at h
    split at h
    · exact List.mem_cons_of_mem _ (ih h)
    · exact h

theorem popLeadIf_cons_false (p : List Char → Bool) (a : List Char) (t : List (List Char))
    (h : p a = false) : popLeadIf p (a :: t) = a :: t := by
  simp [popLeadIf, h]

theorem popLeadIf_head_false (p : List Char → Bool) (L : List (List Char)) (a : List Char)
    (r : List (List Char)) (h : popLeadIf p L = a :: r) : p a = false := by
  induction L with
  | nil => simp [popLeadIf] at h
  | cons x t ih =>
    simp only [popLeadIf] at h
    split at h
    · exact ih h
    · rename_i hc
      cases h
      simpa using hc

theorem popTrailIf_mem (p : List Char → Bool) (L : List (List Char)) (l : List Char)
    (h : l ∈ popTrailIf p L) : l ∈ L := by
  induction L with
  | nil => simpa [popTrailIf] using h
  | cons a t ih =>
    simp only [popTrailIf] at h
    split at h
    · split at h
      · simp at h
      · simp at h
        subst h
        exact List.mem_cons_self _ _
    · rcases List.mem_cons.1 h with rfl | h2
      · exact List.mem_cons_self _ _
      · exact List.mem_cons_of_mem _ (ih h2)

theorem popTrailIf_getLast_false (p : List Char → Bool) (L : List (List Char)) (h : List Char)
    (hh : (popTrailIf p L).getLast? = some h) : p h = false := by
  induction L with
  | nil => simp [popTrailIf] at hh
  | cons a t ih =>
    simp only [popTrailIf] at hh
    split at hh
    · split at hh
      · simp at hh
      · rename_i hc
        simp at hh
        subst hh
        simpa using hc
    · rename_i hr
      obtain ⟨b, r2, hbr⟩ : ∃ b r2, popTrailIf p t = b :: r2 := by
        cases hr2 : popTrailIf p t with
        | nil => rw [hr2] at hr; simp at hr
        | cons b r2 => exact ⟨b, r2, rfl⟩
      rw [hbr, List.getLast?_cons_cons] at hh
      exact ih (by rw [hbr]; exact hh)

theorem popTrailIf_head? (p : List Char → Bool) (L : List (List Char))
    (hne : ¬ popTrailIf p L = []) : (popTrailIf p L).head? = L.head? := by
  cases L with
  | nil => exact absurd rfl hne
  | cons a t =>
    by_cases h1 : (popTrailIf p t).isEmpty = true
    · by_cases h2 : p a = true
      · simp [popTrailIf, h1, h2] at hne
      · simp [popTrailIf, h1, h2]
    · simp only [Bool.not_eq_true] at h1
      simp [popTrailIf, h1]

theorem popTrailIf_id (p : List Char → Bool) (L : List (List Char)) (l : List Char)
    (hlast : L.getLast? = some l) (hp : p l = false) : popTrailIf p L = L := by
  induction L with
  | nil => rfl
  | cons a t ih =>
    cases t with
    | nil =>
      simp at hlast
      subst hlast
      simp [popTrailIf, hp]
    | cons b t2 =>
      rw [List.getLast?_cons_cons] at hlast
      have ht := ih hlast
      have hstep : popTrailIf p (a :: b :: t2) =
          if (popTrailIf p (b :: t2)).isEmpty then (if p a = true then [] else [a])
          else a :: popTrailIf p (b :: t2) := rfl
      rw [hstep, ht]
      simp

theorem map_eq_self_of_mem (f : List Char → List Char) (l : List (List Char))
    (h : ∀ x ∈ l, f x = x) : l.map f = l := by
  induction l with
  | nil => rfl
  | cons a t ih =>
    simp only [List.map_cons, h a (List.mem_cons_self a t),
      ih (fun x hx => h x (List.mem_cons_of_mem a hx))]

theorem pops_idem (p : List Char → Bool) (L : List (List Char)) :
    popTrailIf p (popLeadIf p (popTrailIf p (popLeadIf p L))) =
    popTrailIf p (popLeadIf p L) := by
  by_cases hM0 : popTrailIf p (popLeadIf p L) = []
  · rw [hM0]
    rfl
  · obtain ⟨a, r, har⟩ : ∃ a r, popTrailIf p (popLeadIf p L) = a :: r := by
      cases hM : popTrailIf p (popLeadIf p L) with
      | nil => exact absurd hM hM0
      | cons a r => exact ⟨a, r, rfl⟩
    have hhead := popTrailIf_head? p (popLeadIf p L) hM0
    rw [har] at hhead
    obtain ⟨r2, hr2⟩ : ∃ r2, popLeadIf p L = a :: r2 := by
      cases hL2 : popLeadIf p L with
      | nil => rw [hL2] at hhead; simp at hhead
      | cons b t =>
        rw [hL2] at hhead
        simp at hhead
        exact ⟨t, by rw [hhead]⟩
    have hpa : p a = false := popLeadIf_head_false p L a r2 hr2
    have hlead : popLeadIf p (a :: r) = a :: r := popLeadIf_cons_false p a r hpa
    rw [har, hlead]
    cases hg : (a :: r).getLast? with
    | none => simp at hg
    | some g =>
      have hpg : p g = false := by
        apply popTrailIf_getLast_false p (popLeadIf p L)
        rw [har]
        exact hg
      exact popTrailIf_id p (a :: r) g hg hpg

theorem normalizeContent_idem (s : List Char) :
    normalizeContent (normalizeContent s) = normalizeContent s := by
  have hsplit : pySplitlines (normalizeContent s) =
      popTrailIf isEmptyLine (popLeadIf isEmptyLine ((pySplitlines s).map pyRstrip)) := by
    refine splitGo_joinNL _ ?_ ?_
    · intro l hl c hc
      have h1 : l ∈ (pySplitlines s).map pyRstrip :=
        popLeadIf_mem _ _ _ (popTrailIf_mem _ _ _ hl)
      obtain ⟨x, hx, rfl⟩ := List.mem_map.1 h1
      exact noBreak_of_mem_pySplitlines s x hx c (mem_pyRstrip _ _ hc)
    · intro he
      have h2 := popTrailIf_getLast_false isEmptyLine _ _ he
      simp [isEmptyLine] at h2
  have hmap : (pySplitlines (normalizeContent s)).map pyRstrip =
      pySplitlines (normalizeContent s) := by
    rw [hsplit]
    refine map_eq_self_of_mem _ _ ?_
    intro l hl
    have h1 : l ∈ (pySplitlines s).map pyRstrip :=
      popLeadIf_mem _ _ _ (popTrailIf_mem _ _ _ hl)
    obtain ⟨x, hx, rfl⟩ := List.mem_map.1 h1
    exact pyRstrip_idem x
  show joinNL (popTrailIf isEmptyLine (popLeadIf isEmptyLine
      ((pySplitlines (normalizeContent s)).map pyRstrip))) = normalizeContent s
  rw [hmap, hsplit, pops_idem]
  rfl

theorem stripKeepFilter_mem (L : List (List Char)) : ∀ (st : Bool) (l : List Char),
    l ∈ stripKeepFilter st L → l ∈ L := by
  induction L with
  | nil =>
    intro st l h
    simpa [stripKeepFilter] using h
  | cons a t ih =>
    intro st l h
    simp only [stripKeepFilter] at h
    split at h
    · exact List.mem_cons_of_mem _ (ih st l h)
    · split at h
      · split at h
        · rcases List.mem_cons.1 h with rfl | h2
          · exact List.mem_cons_self _ _
          · exact List.mem_cons_of_mem _ (ih st l h2)
        · exact List.mem_cons_of_mem _ (ih st l h)
      · split at h
        · rcases List.mem_cons.1 h with rfl | h2
          · exact List.mem_cons_self _ _
          · exact List.mem_cons_of_mem _ (ih st l h2)
        · split at h
          · rcases List.mem_cons.1 h with rfl | h2
            · exact List.mem_cons_self _ _
            · exact List.mem_cons_of_mem _ (ih _ l h2)
          · exact List.mem_cons_of_mem _ (ih _ l h)

theorem stripKeepFilter_inv (L : List (List Char)) : ∀ (st : Bool) (l : List Char),
    l ∈ stripKeepFilter st L → keepInv l := by
  induction L with
  | nil =>
    intro st l h
    simp [stripKeepFilter] at h
  | cons a t ih =>
    intro st l h
    simp only [stripKeepFilter] at h
    split at h
    · exact ih st l h
    · rename_i h1
      simp only [Bool.or_eq_true, not_or, Bool.not_eq_true] at h1
      obtain ⟨⟨⟨hv, hb⟩, he⟩, hm⟩ := h1
      split at h
      · rename_i h2
        split at h
        · rename_i h3
          rcases List.mem_cons.1 h with rfl | h4
          · exact ⟨hv, hb, he, hm, fun _ => h3⟩
          · exact ih st l h4
        · exact ih st l h
      · rename_i h2
        split at h
        · rcases List.mem_cons.1 h with rfl | h4
          · exact ⟨hv, hb, he, hm, fun hA => absurd hA h2⟩
          · exact ih st l h4
        · split at h
          · rcases List.mem_cons.1 h with rfl | h4
            · exact ⟨hv, hb, he, hm, fun hA => absurd hA h2⟩
            · exact ih _ l h4
          · exact ih _ l h

theorem stripKeepFilter_all (L : List (List Char)) (h : ∀ l ∈ L, keepInv l) :
    stripKeepFilter true L = L := by
  induction L with
  | nil => rfl
  | cons a t ih =>
    obtain ⟨h1, h2, h3, h4, h5⟩ := h a (List.mem_cons_self a t)
    have hrec := ih (fun l hl => h l (List.mem_cons_of_mem a hl))
    have hor : ¬ (startsW a ("VERSION".toList) || startsW a ("Begin".toList) ||
        startsW a ("End".toList) || startsW a ("MultiUse".toList)) = true := by
      rw [h1, h2, h3, h4]
      simp
    rw [stripKeepFilter, if_neg hor]
    by_cases hA : startsW a ("Attribute ".toList) = true
    · rw [if_pos hA, if_pos (h5 hA), hrec]
    · rw [if_neg hA]
      by_cases hC : startsW (pyStrip a) ['\''] = true
      · rw [if_pos hC, hrec]
      · rw [if_neg hC]
        simp only [Bool.true_or]
        simp [hrec]

theorem stripLines_mem (t : List Char) (l : List Char) (h : l ∈ stripLines t) :
    l ∈ pySplitlines t := by
  exact stripKeepFilter_mem _ false l (popLeadIf_mem _ _ _ (popTrailIf_mem _ _ _ h))

theorem stripLines_inv (t : List Char) (l : List Char) (h : l ∈ stripLines t) : keepInv l :=
  stripKeepFilter_inv _ false l (popLeadIf_mem _ _ _ (popTrailIf_mem _ _ _ h))

theorem stripLines_noBreak (t : List Char) (l : List Char) (h : l ∈ stripLines t) :
    ∀ c ∈ l, isLineBreak c = false :=
  noBreak_of_mem_pySplitlines t l (stripLines_mem t l h)

theorem stripLines_getLast_nonblank (t : List Char) (g : List Char)
    (hg : (stripLines t).getLast? = some g) : isBlankLine g = false :=
  popTrailIf_getLast_false isBlankLine _ g hg

theorem stripVbaHeader_ne_nil_lines (t : List Char) (h : ¬ stripVbaHeader t = []) :
    ¬ stripLines t = [] := by
  intro he
  rw [stripVbaHeader, he] at h
  exact h rfl

theorem isEmpty_eq_false_of_ne_nil {α : Type} (l : List α) (h : ¬ l = []) :
    l.isEmpty = false := by
  cases l with
  | nil => exact absurd rfl h
  | cons a t => rfl

theorem getLast?_some_of_ne_nil {α : Type} (l : List α) (h : ¬ l = []) :
    ∃ g, l.getLast? = some g := by
  cases hl : l.getLast? with
  | none =>
    rw [List.getLast?_eq_none_iff] at hl
    exact absurd hl h
  | some g => exact ⟨g, rfl⟩

theorem attrLineOf_not_kw (name : List Char) :
    startsW (attrLineOf name) ("VERSION".toList) = false ∧
    startsW (attrLineOf name) ("Begin".toList) = false ∧
    startsW (attrLineOf name) ("End".toList) = false ∧
    startsW (attrLineOf name) ("MultiUse".toList) = false := by
  refine ⟨?_, ?_, ?_, ?_⟩ <;>
    · rw [attrLineOf, startsW_append_left _ _ _ (by decide)]
      decide

theorem attrLineOf_attr (name : List Char) :
    startsW (attrLineOf name) ("Attribute ".toList) = true := by
  rw [attrLineOf]
  exact startsW_true_append _ _ _ (by decide)

theorem attrLineOf_vbname (name : List Char) :
    hasSub (attrLineOf name) ("VB_Name".toList) = true := by
  rw [attrLineOf]
  exact hasSub_append_left _ _ _ (by decide)

theorem attrLineOf_noBreak (name : List Char) (hname : ∀ c ∈ name, isLineBreak c = false) :
    ∀ c ∈ attrLineOf name, isLineBreak c = false := by
  intro c hc
  rw [attrLineOf] at hc
  rcases List.mem_append.1 hc with h | h
  · have hall : ∀ c ∈ attrLit, isLineBreak c = false := by decide
    exact hall c h
  · rcases List.mem_append.1 h with h2 | h2
    · exact hname c h2
    · simp at h2
      subst h2
      decide

theorem attrLineOf_nonblank (name : List Char) : isBlankLine (attrLineOf name) = false := by
  have hmem : 'A' ∈ attrLineOf name := by
    rw [attrLineOf]
    exact List.mem_append_left _ (by decide)
  have hne := pyStrip_ne_nil (attrLineOf name) 'A' hmem (by decide)
  rw [isBlankLine]
  exact isEmpty_eq_false_of_ne_nil _ hne

theorem mem_of_getLast?_eq {α : Type} (l : List α) (g : α) (h : l.getLast? = some g) :
    g ∈ l := by
  induction l with
  | nil => simp at h
  | cons a t ih =>
    cases t with
    | nil =>
      simp at h
      subst h
      exact List.mem_cons_self _ _
    | cons b t2 =>
      rw [List.getLast?_cons_cons] at h
      exact List.mem_cons_of_mem _ (ih h)

theorem stripVbaHeader_ne_nil_of_strip (b : List Char)
    (hnb : (pyStrip (stripVbaHeader b)).isEmpty = false) : ¬ stripVbaHeader b = [] := by
  intro he
  rw [he] at hnb
  simp at hnb
  exact hnb rfl

theorem lastChar?_stripVbaHeader (b : List Char)
    (hnb : (pyStrip (stripVbaHeader b)).isEmpty = false) :
    ¬ lastChar? (stripVbaHeader b) = some '\n' := by
  have hLne : ¬ stripLines b = [] :=
    stripVbaHeader_ne_nil_lines b (stripVbaHeader_ne_nil_of_strip b hnb)
  obtain ⟨g, hg⟩ := getLast?_some_of_ne_nil _ hLne
  have hgblank := stripLines_getLast_nonblank b g hg
  have hgne : ¬ g = [] := by
    intro he
    subst he
    exact absurd hgblank (by decide)
  rw [stripVbaHeader, lastChar?_joinNL (stripLines b) g hg hgne]
  have hgmem : g ∈ stripLines b := mem_of_getLast?_eq _ g hg
  exact lastChar?_ne_nl g (fun c hc => stripLines_noBreak b g hgmem c hc) hgne

theorem repairText_noattr (b name : List Char)
    (hnoattr : hasSub b ("Attribute VB_Name".toList) = false)
    (hnb : (pyStrip (stripVbaHeader b)).isEmpty = false) :
    repairText b name = vbHeaderOf name ++ (stripVbaHeader b ++ ['\n']) := by
  rw [repairText, if_neg (by rw [hnb]; simp), if_pos (by rw [hnoattr]; simp), ensureNL]
  have hsne : ¬ stripVbaHeader b = [] := stripVbaHeader_ne_nil_of_strip b hnb
  have htne : ¬ (vbHeaderOf name ++ stripVbaHeader b) = [] := by
    intro he
    rcases List.append_eq_nil.1 he with ⟨he1, _⟩
    rw [vbHeaderOf] at he1
    rcases List.append_eq_nil.1 he1 with ⟨_, he2⟩
    cases he2
  have h1 : (vbHeaderOf name ++ stripVbaHeader b).isEmpty = false :=
    isEmpty_eq_false_of_ne_nil _ htne
  have hlast : ¬ lastChar? (vbHeaderOf name ++ stripVbaHeader b) = some '\n' := by
    rw [lastChar?_append _ _ hsne]
    exact lastChar?_stripVbaHeader b hnb
  have h2 : decide (lastChar? (vbHeaderOf name ++ stripVbaHeader b) = some '\n') = false :=
    decide_eq_false hlast
  have hcond : (!(vbHeaderOf name ++ stripVbaHeader b).isEmpty &&
      !(decide (lastChar? (vbHeaderOf name ++ stripVbaHeader b) = some '\n'))) = true := by
    rw [h1, h2]
    rfl
  rw [if_pos hcond, List.append_assoc]

theorem stripVbaHeader_header_append (L : List (List Char)) (name : List Char)
    (hname : ∀ c ∈ name, isLineBreak c = false)
    (hLnb : ∀ l ∈ L, ∀ c ∈ l, isLineBreak c = false)
    (hLinv : ∀ l ∈ L, keepInv l)
    (hLne : ¬ L = [])
    (g : List Char) (hg : L.getLast? = some g) (hgblank : isBlankLine g = false) :
    stripVbaHeader (vbHeaderOf name ++ (joinNL L ++ ['\n'])) = vbHeaderOf name ++ joinNL L := by
  obtain ⟨l0, r, hLr⟩ := List.exists_cons_of_ne_nil hLne
  have hshape : vbHeaderOf name ++ (joinNL L ++ ['\n']) =
      attrLineOf name ++ '\n' :: (oeLine ++ '\n' :: (joinNL L ++ ['\n'])) := by
    rw [vbHeaderOf]
    simp
  have hjnl := splitGo_joinNL_nl L hLnb hLne
  rw [pySplitlines] at hjnl
  have hsplit : pySplitlines (vbHeaderOf name ++ (joinNL L ++ ['\n'])) =
      attrLineOf name :: oeLine :: L := by
    rw [hshape, pySplitlines, splitGo_append_nl _ _ [] (attrLineOf_noBreak name hname),
        splitGo_append_nl _ _ [] (by decide : ∀ c ∈ oeLine, isLineBreak c = false), hjnl]
    simp
  have hfilter : stripKeepFilter false (attrLineOf name :: oeLine :: L) =
      attrLineOf name :: oeLine :: L := by
    obtain ⟨k1, k2, k3, k4⟩ := attrLineOf_not_kw name
    rw [stripKeepFilter, if_neg (by rw [k1, k2, k3, k4]; simp),
        if_pos (attrLineOf_attr name), if_pos (attrLineOf_vbname name)]
    rw [stripKeepFilter, if_neg (by decide), if_neg (by decide), if_neg (by decide)]
    have hoe : (false || !(pyStrip oeLine).isEmpty) = true := by decide
    rw [if_pos hoe, hoe, stripKeepFilter_all L hLinv]
  have hgl : (attrLineOf name :: oeLine :: L).getLast? = some g := by
    rw [List.getLast?_cons_cons, hLr, List.getLast?_cons_cons, ← hLr, hg]
  rw [stripVbaHeader, stripLines, hsplit, hfilter,
      popLeadIf_cons_false _ _ _ (attrLineOf_nonblank name),
      popTrailIf_id isBlankLine _ g hgl hgblank, joinNL_cons_cons, hLr, joinNL_cons_cons, ← hLr,
      vbHeaderOf]
  simp

theorem stripVbaHeader_repairText (b name : List Char)
    (hname : ∀ c ∈ name, isLineBreak c = false)
    (hnoattr : hasSub b ("Attribute VB_Name".toList) = false)
    (hnb : (pyStrip (stripVbaHeader b)).isEmpty = false) :
    stripVbaHeader (repairText b name) = vbHeaderOf name ++ stripVbaHeader b := by
  have hsne : ¬ stripVbaHeader b = [] := stripVbaHeader_ne_nil_of_strip b hnb
  have hLne : ¬ stripLines b = [] := stripVbaHeader_ne_nil_lines b hsne
  obtain ⟨g, hg⟩ := getLast?_some_of_ne_nil _ hLne
  rw [repairText_noattr b name hnoattr hnb]
  have hsb : stripVbaHeader b = joinNL (stripLines b) := rfl
  rw [hsb]
  exact stripVbaHeader_header_append (stripLines b) name hname
    (fun l hl => stripLines_noBreak b l hl) (fun l hl => stripLines_inv b l hl) hLne g hg
    (stripLines_getLast_nonblank b g hg)

theorem joinParts_append (A B : List (List Char)) :
    joinParts (A ++ B) = joinParts A ++ joinParts B := by
  induction A with
  | nil => rfl
  | cons a t ih => simp [joinParts, ih]

theorem hashPartsOf_append (A B : List VComponent) :
    hashPartsOf (A ++ B) = hashPartsOf A ++ hashPartsOf B := by
  induction A with
  | nil => rfl
  | cons c t ih =>
    simp only [List.cons_append, hashPartsOf]
    split <;> simp [ih]

theorem hashPartsOf_congr (A : List VComponent) : ∀ (B : List VComponent),
    A.map (fun c => (c.name, c.code)) = B.map (fun c => (c.name, c.code)) →
    hashPartsOf A = hashPartsOf B := by
  induction A with
  | nil =>
    intro B h
    cases B with
    | nil => rfl
    | cons b t => simp at h
  | cons a t ih =>
    intro B h
    cases B with
    | nil => simp at h
    | cons b t2 =>
      simp only [List.map_cons, List.cons.injEq, Prod.mk.injEq] at h
      obtain ⟨⟨hn, hc⟩, ht⟩ := h
      simp only [hashPartsOf, hn, hc]
      rw [ih t2 ht]

theorem hashPartsOf_eq_map_filter (comps : List VComponent) :
    hashPartsOf comps =
      (comps.filter (fun c => !c.code.isEmpty)).map (fun c => c.name ++ ':' :: c.code) := by
  induction comps with
  | nil => rfl
  | cons c t ih =>
    by_cases h : c.code.isEmpty = true
    · simp [hashPartsOf, h, ih]
    · simp only [Bool.not_eq_true] at h
      simp [hashPartsOf, h, ih]

theorem moduleContentHash_single_change (pre post : List VComponent) (c c2 : VComponent)
    (hname : c.name = c2.name) (hcode : ¬ c.code = c2.code) :
    ¬ moduleContentHash (pre ++ c :: post) = moduleContentHash (pre ++ c2 :: post) := by
  intro he
  have he2 : hashInputOf (pre ++ c :: post) = hashInputOf (pre ++ c2 :: post) := by
    simpa [moduleContentHash, digestModel] using he
  have hsplit1 : hashInputOf (pre ++ c :: post) =
      joinParts (hashPartsOf pre) ++ (joinParts (hashPartsOf [c]) ++ joinParts (hashPartsOf post)) := by
    rw [hashInputOf, show pre ++ c :: post = pre ++ ([c] ++ post) by simp, hashPartsOf_append,
        hashPartsOf_append, joinParts_append, joinParts_append]
  have hsplit2 : hashInputOf (pre ++ c2 :: post) =
      joinParts (hashPartsOf pre) ++ (joinParts (hashPartsOf [c2]) ++ joinParts (hashPartsOf post)) := by
    rw [hashInputOf, show pre ++ c2 :: post = pre ++ ([c2] ++ post) by simp, hashPartsOf_append,
        hashPartsOf_append, joinParts_append, joinParts_append]
  rw [hsplit1, hsplit2] at he2
  have h3 := List.append_cancel_left he2
  have hX := List.append_cancel_right h3
  by_cases h1 : c.code = []
  · by_cases h2 : c2.code = []
    · exact hcode (h1.trans h2.symm)
    · rw [show hashPartsOf [c] = [] by simp [hashPartsOf, h1],
          show hashPartsOf [c2] = [c2.name ++ ':' :: c2.code] by
            simp [hashPartsOf, h2]] at hX
      have hlen := congrArg List.length hX
      simp [joinParts] at hlen
      omega
  · by_cases h2 : c2.code = []
    · rw [show hashPartsOf [c2] = [] by simp [hashPartsOf, h2],
          show hashPartsOf [c] = [c.name ++ ':' :: c.code] by
            simp [hashPartsOf, h1]] at hX
      have hlen := congrArg List.length hX
      simp [joinParts] at hlen
    · rw [show hashPartsOf [c] = [c.name ++ ':' :: c.code] by simp [hashPartsOf, h1],
          show hashPartsOf [c2] = [c2.name ++ ':' :: c2.code] by simp [hashPartsOf, h2]] at hX
      simp only [joinParts, List.append_nil, hname] at hX
      have h4 := List.append_cancel_left hX
      simp at h4
      exact hcode h4


theorem alLookup_cons {α : Type} (e : List Char × α) (t : List (List Char × α)) (k : List Char) :
    alLookup (e :: t) k = if e.1 = k then some e.2 else alLookup t k := rfl

theorem alLookup_fsErase_ne (fs : Fs) (f g : List Char) (h : ¬ g = f) :
    alLookup (fsErase fs f) g = alLookup fs g := by
  induction fs with
  | nil => rfl
  | cons e t ih =>
    by_cases he : e.1 = f
    · have h1 : fsErase (e :: t) f = fsErase t f := by simp [fsErase, he]
      have h2 : alLookup (e :: t) g = alLookup t g := by
        rw [alLookup_cons, if_neg (fun hx => h (hx.symm.trans he))]
      rw [h1, h2, ih]
    · have h1 : fsErase (e :: t) f = e :: fsErase t f := by simp [fsErase, he]
      rw [h1, alLookup_cons, alLookup_cons, ih]

theorem alLookup_fsWrite_eq (fs : Fs) (f v : List Char) :
    alLookup (fsWrite fs f v) f = some v := by
  rw [fsWrite, alLookup_cons, if_pos rfl]

theorem alLookup_fsWrite_ne (fs : Fs) (f v g : List Char) (h : ¬ g = f) :
    alLookup (fsWrite fs f v) g = alLookup fs g := by
  rw [fsWrite, alLookup_cons, if_neg (fun hx => h hx.symm), alLookup_fsErase_ne fs f g h]

theorem alLookup_fsDropOrphans (names : List (List Char)) (fs : Fs) (f : List Char) :
    alLookup (fsDropOrphans names fs) f =
      if orphanFile names f = true then none else alLookup fs f := by
  induction fs with
  | nil => simp [fsDropOrphans, alLookup]
  | cons e t ih =>
    by_cases hq : orphanFile names e.1 = true
    · have hfil : fsDropOrphans names (e :: t) = fsDropOrphans names t := by
        simp [fsDropOrphans, List.filter, hq]
      rw [hfil, ih]
      by_cases hef : e.1 = f
      · rw [if_pos (hef ▸ hq), if_pos (hef ▸ hq)]
      · rw [alLookup_cons, if_neg hef]
    · have hfil : fsDropOrphans names (e :: t) = e :: fsDropOrphans names t := by
        simp [fsDropOrphans, List.filter, hq]
      rw [hfil, alLookup_cons, alLookup_cons, ih]
      by_cases hef : e.1 = f
      · rw [if_pos hef, if_pos hef, if_neg (hef ▸ hq)]
      · rw [if_neg hef, if_neg hef]

theorem syncDeleted_lookup (comps : List VComponent) (fs : Fs) (resp : List Char)
    (f : List Char) :
    alLookup (syncDeletedModules comps fs resp) f = alLookup fs f ∨
    alLookup (syncDeletedModules comps fs resp) f = none := by
  rw [syncDeletedModules]
  split
  · split
    · rw [alLookup_fsDropOrphans]
      split
      · exact Or.inr rfl
      · exact Or.inl rfl
    · exact Or.inl rfl
  · exact Or.inl rfl

theorem syncDeleted_preserve (comps : List VComponent) (fs : Fs) (resp : List Char)
    (f : List Char) (h : orphanFile (comps.map (fun c => lowerStr c.name)) f = false) :
    alLookup (syncDeletedModules comps fs resp) f = alLookup fs f := by
  rw [syncDeletedModules]
  split
  · split
    · rw [alLookup_fsDropOrphans, if_neg (by rw [h]; simp)]
    · rfl
  · rfl

theorem endsW_append (n e : List Char) : endsW (n ++ e) e = true := by
  rw [endsW, List.reverse_append]
  exact startsW_true_append _ _ _ (startsW_self _)

theorem fileStem_append_ext (n : List Char) (a b c : Char)
    (ha : ¬ a = '.') (hb : ¬ b = '.') (hc : ¬ c = '.') :
    fileStem (n ++ ['.', a, b, c]) = n := by
  have h1 : (n ++ ['.', a, b, c]).reverse.dropWhile (fun x => !(decide (x = '.'))) =
      '.' :: n.reverse := by
    rw [List.reverse_append]
    simp [List.dropWhile_cons, ha, hb, hc]
  rw [fileStem]
  rw [show ((n ++ ['.', a, b, c]).reverse.dropWhile fun c => !(decide (c = '.'))) =
      '.' :: n.reverse from h1]
  simp

theorem fileStem_vcFileName (c : VComponent) : fileStem (vcFileName c) = c.name := by
  rw [vcFileName, extOf]
  split
  · exact fileStem_append_ext _ 'b' 'a' 's' (by decide) (by decide) (by decide)
  · split
    · exact fileStem_append_ext _ 'c' 'l' 's' (by decide) (by decide) (by decide)
    · split
      · exact fileStem_append_ext _ 'f' 'r' 'm' (by decide) (by decide) (by decide)
      · split
        · exact fileStem_append_ext _ 'c' 'l' 's' (by decide) (by decide) (by decide)
        · exact fileStem_append_ext _ 'b' 'a' 's' (by decide) (by decide) (by decide)

theorem vbaExtFile_vcFileName (c : VComponent) : vbaExtFile (vcFileName c) = true := by
  rw [vcFileName, extOf]
  split
  · simp [vbaExtFile, endsW_append]
  · split
    · simp [vbaExtFile, endsW_append]
    · split
      · simp [vbaExtFile, endsW_append]
      · split
        · simp [vbaExtFile, endsW_append]
        · simp [vbaExtFile, endsW_append]

theorem orphanFile_comp_false (comps : List VComponent) (c : VComponent) (hmem : c ∈ comps) :
    orphanFile (comps.map (fun x => lowerStr x.name)) (vcFileName c) = false := by
  rw [orphanFile, fileStem_vcFileName]
  have hm : lowerStr c.name ∈ comps.map (fun x => lowerStr x.name) :=
    List.mem_map_of_mem _ hmem
  simp [hm]

theorem exportLoop_skip_preserve (hE : VComponent → Option (List Char))
    (skip : List (List Char)) (comps : List VComponent) :
    ∀ (fs : Fs) (fname : List Char), fname ∈ skip →
    alLookup (exportLoop hE skip comps fs).2.1 fname = alLookup fs fname := by
  induction comps with
  | nil =>
    intro fs fname hmem
    rfl
  | cons c rest ih =>
    intro fs fname hmem
    by_cases hc : vcFileName c ∈ skip
    · rw [show exportLoop hE skip (c :: rest) fs = exportLoop hE skip rest fs from by
        simp [exportLoop, hc]]
      exact ih fs fname hmem
    · have hne : ¬ fname = vcFileName c := fun hx => hc (hx ▸ hmem)
      cases hhe : hE c with
      | none =>
        rw [show (exportLoop hE skip (c :: rest) fs).2.1 = fs from by
          simp [exportLoop, hc, hhe]]
      | some raw =>
        rw [show (exportLoop hE skip (c :: rest) fs).2.1 =
            (exportLoop hE skip rest (fsWrite fs (vcFileName c)
              (if isCodeType c.ctype then stripVbaHeaderFileText raw else raw))).2.1 from by
          simp [exportLoop, hc, hhe]]
        rw [ih _ fname hmem, alLookup_fsWrite_ne _ _ _ _ hne]

theorem mem_changedFiles (comps : List VComponent) :
    ∀ (fs : Fs) (c : VComponent) (loc : List Char), c ∈ comps →
    alLookup fs (vcFileName c) = some loc → isCodeType c.ctype = true →
    moduleDiffer loc c.code = true → vcFileName c ∈ changedFiles comps fs := by
  induction comps with
  | nil =>
    intro fs c loc h
    simp at h
  | cons a t ih =>
    intro fs c loc hmem hloc htype hdiff
    rcases List.mem_cons.1 hmem with rfl | h2
    · have hcond : ((alLookup fs (vcFileName c)).isSome && isCodeType c.ctype &&
          moduleDiffer ((alLookup fs (vcFileName c)).getD []) c.code) = true := by
        rw [hloc]
        simp [htype, hdiff]
      simp [changedFiles, hcond]
    · have hrec := ih fs c loc h2 hloc htype hdiff
      simp only [changedFiles]
      split
      · exact List.mem_cons_of_mem _ hrec
      · exact hrec

theorem nodup_map_inj {α β : Type} (f : α → β) (l : List α) (h : (l.map f).Nodup)
    (a b : α) (ha : a ∈ l) (hb : b ∈ l) (hf : f a = f b) : a = b := by
  induction l with
  | nil => simp at ha
  | cons x t ih =>
    simp only [List.map_cons, List.nodup_cons] at h
    obtain ⟨hnin, hnd⟩ := h
    rcases List.mem_cons.1 ha with rfl | ha2
    · rcases List.mem_cons.1 hb with rfl | hb2
      · rfl
      · have hin : f a ∈ t.map f := by
          rw [hf]
          exact List.mem_map_of_mem f hb2
        exact absurd hin hnin
    · rcases List.mem_cons.1 hb with rfl | hb2
      · have hin : f b ∈ t.map f := by
          rw [← hf]
          exact List.mem_map_of_mem f ha2
        exact absurd hin hnin
      · exact ih hnd ha2 hb2

theorem alLookup_eq_none_of_no_key {α : Type} (m : List (List Char × α)) (k : List Char)
    (h : ∀ e ∈ m, ¬ e.1 = k) : alLookup m k = none := by
  induction m with
  | nil => rfl
  | cons e t ih =>
    rw [alLookup_cons, if_neg (h e (List.mem_cons_self _ _))]
    exact ih (fun x hx => h x (List.mem_cons_of_mem _ hx))

theorem findComponent_none_of_not_mem (comps : List VComponent) (n : List Char)
    (h : ¬ n ∈ comps.map VComponent.name) : findComponent comps n = none := by
  induction comps with
  | nil => rfl
  | cons c t ih =>
    rw [show findComponent (c :: t) n = if c.name = n then some c else findComponent t n
      from rfl]
    rw [if_neg (fun hx : c.name = n => h (by
      rw [← hx]
      exact List.mem_map_of_mem VComponent.name (List.mem_cons_self c t)))]
    exact ih (fun hx => h (by simp only [List.map_cons]; exact List.mem_cons_of_mem _ hx))

theorem findComponent_removeComponent_none (comps : List VComponent) (n : List Char)
    (hnodup : (comps.map VComponent.name).Nodup) :
    findComponent (removeComponent comps n) n = none := by
  induction comps with
  | nil => rfl
  | cons c t ih =>
    simp only [List.map_cons, List.nodup_cons] at hnodup
    obtain ⟨hnin, hnd⟩ := hnodup
    by_cases hc : c.name = n
    · rw [show removeComponent (c :: t) n = t from by simp [removeComponent, hc]]
      apply findComponent_none_of_not_mem
      rw [← hc]
      exact hnin
    · rw [show removeComponent (c :: t) n = c :: removeComponent t n from by
        simp [removeComponent, hc]]
      rw [show findComponent (c :: removeComponent t n) n =
          findComponent (removeComponent t n) n from by simp [findComponent, hc]]
      exact ih hnd

theorem findComponent_append_right (A B : List VComponent) (n : List Char)
    (h : findComponent A n = none) : findComponent (A ++ B) n = findComponent B n := by
  induction A with
  | nil => rfl
  | cons c t ih =>
    by_cases hc : c.name = n
    · rw [show findComponent (c :: t) n = some c from by simp [findComponent, hc]] at h
      cases h
    · rw [List.cons_append, show findComponent (c :: (t ++ B)) n = findComponent (t ++ B) n
        from by simp [findComponent, hc]]
      apply ih
      rw [show findComponent (c :: t) n = findComponent t n from by
        simp [findComponent, hc]] at h
      exact h

end Lemmas


/-- C1: the claim says the header strippers remove only pure framing
lines and keep every code line verbatim, in particular a line such as
`End Sub` (the framing `End` marker only ever being a bare line).  The
export-side stripper (`_strip_vba_header_file`) does preserve `End Sub`,
but the import-side stripper (`_strip_vba_header`) deletes every line
that merely starts with `End`: on the body `Sub X()\nEnd Sub` it
returns `Sub X()`, destroying the procedure terminator of the module it
repairs before every import.  This theorem evaluates both strippers at
that failing input, exhibiting the divergence. -/
theorem c1_end_sub_divergence :
    stripVbaHeader ("Sub X()\nEnd Sub".toList) = "Sub X()".toList ∧
    stripVbaHeaderFileText ("Sub X()\nEnd Sub".toList) = "Sub X()\nEnd Sub".toList := by
  decide

/-- C2 counterexample: for the body `x = 1` (which contains no
name-attribute line), `strip(restore(b))` is not `normalize(b)`: the
repair transform prepends the synthesized `Attribute VB_Name` /
`Option Explicit` header, which the stripper then keeps. -/
theorem c2_counterexample :
    hasSub ("x = 1".toList) ("Attribute VB_Name".toList) = false ∧
    ¬ stripVbaHeader (repairText ("x = 1".toList) ("M".toList)) =
        normalizeContent ("x = 1".toList) := by
  decide

/-- C2 (amended): for a body `b` without the name-attribute line whose
stripped form is not blank, and a break-free module name,
`strip(restore(b))` equals the synthesized two-line header followed by
`strip(b)` — not `normalize(b)`. -/
theorem c2_round_trip (b name : List Char)
    (hname : ∀ c ∈ name, isLineBreak c = false)
    (hnoattr : hasSub b ("Attribute VB_Name".toList) = false)
    (hnb : (pyStrip (stripVbaHeader b)).isEmpty = false) :
    stripVbaHeader (repairText b name) = vbHeaderOf name ++ stripVbaHeader b :=
  stripVbaHeader_repairText b name hname hnoattr hnb

/-- C2 witness: the round-trip shape at the concrete body `x = 1` and
module name `M`. -/
theorem c2_round_trip_witness :
    (∀ c ∈ ("M".toList), isLineBreak c = false) ∧
    hasSub ("x = 1".toList) ("Attribute VB_Name".toList) = false ∧
    (pyStrip (stripVbaHeader ("x = 1".toList))).isEmpty = false ∧
    stripVbaHeader (repairText ("x = 1".toList) ("M".toList)) =
      vbHeaderOf ("M".toList) ++ stripVbaHeader ("x = 1".toList) :=
  ⟨by decide, by decide, by decide,
    c2_round_trip ("x = 1".toList) ("M".toList) (by decide) (by decide) (by decide)⟩

/-- C3 counterexample: `import_module` on a file whose stem matches the
existing standard module `M` with different content replaces the module
although no confirmation was obtained — the import path of
`vba_import.py` contains no resolver interaction at all. -/
theorem c3_counterexample :
    moduleDiffer ("new = 2".toList) compOldM.code = true ∧
    (importModule false ("M".toList) ("new = 2".toList) [compOldM]).1 = true ∧
    ¬ findComponent (importModule false ("M".toList) ("new = 2".toList) [compOldM]).2.1
        ("M".toList) = some compOldM := by
  decide

/-- C3 (amended): when a same-named non-DocumentModule component exists,
`import_module` replaces it unconditionally — remove-then-import, never a
patch — without consulting any resolver (content difference is not even
checked), and reports success. -/
theorem c3_replace_unconditional (force : Bool) (stem content : List Char)
    (comps : List VComponent) (c : VComponent)
    (hfind : findComponent comps stem = some c)
    (htype : ¬ c.ctype = 100)
    (hnodup : (comps.map VComponent.name).Nodup) :
    (importModule force stem content comps).1 = true ∧
    findComponent (importModule force stem content comps).2.1 stem =
      some (hostImportFile stem (repairText content stem)) := by
  simp only [importModule, hfind]
  rw [if_neg htype]
  refine ⟨rfl, ?_⟩
  rw [findComponent_append_right _ _ _ (findComponent_removeComponent_none comps stem hnodup)]
  simp [findComponent, hostImportFile]

/-- C3 witness: the unconditional replacement at the concrete project
`[compOldM]`. -/
theorem c3_replace_witness :
    findComponent [compOldM] ("M".toList) = some compOldM ∧ ¬ compOldM.ctype = 100 ∧
    (importModule false ("M".toList) ("x = 1".toList) [compOldM]).1 = true ∧
    findComponent (importModule false ("M".toList) ("x = 1".toList) [compOldM]).2.1
      ("M".toList) = some (hostImportFile ("M".toList) (repairText ("x = 1".toList)
      ("M".toList))) := by
  have h := c3_replace_unconditional false ("M".toList) ("x = 1".toList) [compOldM] compOldM
    (by decide) (by decide) (by decide)
  exact ⟨by decide, by decide, h.1, h.2⟩

/-- C4 counterexample: with two components `A` and `B` where exporting
`A` raises and exporting `B` would succeed, the document pass returns no
exported files (component `B` is not exported) and no hash, although the
hashing step succeeded — the only handler is at document level
(`_export_document_modules`, lines 290-295), so a per-component error
aborts the remaining components and loses the hash. -/
theorem c4_counterexample :
    exportDocModules hostExportFailA [compA, compB] [] none emptyInput = ([], none, []) ∧
    ¬ hostExportFailA compB = none := by
  decide

/-- C4 (amended): an error raised while exporting a single component is
caught at the document level; it aborts the export of the remaining
components of that document, and the pass returns no exported files and
no hash (so the stored hash is not updated) even though hashing
succeeded. -/
theorem c4_component_error_aborts (hE : VComponent → Option (List Char))
    (comps : List VComponent) (fs : Fs) (lastHash : Option (List Char)) (inp : ResolverInput)
    (h1 : ¬ lastHash = some (moduleContentHash comps))
    (h2 : ¬ (¬ (changedFiles comps fs).isEmpty = true ∧
      parseMain inp.mainResponse = MainDecision.cancel))
    (h3 : (exportLoop hE (filesToSkip comps fs inp) comps fs).2.2 = false) :
    exportDocModules hE comps fs lastHash inp =
      ([], none, (exportLoop hE (filesToSkip comps fs inp) comps fs).2.1) := by
  simp only [exportDocModules]
  rw [if_neg h1, if_neg h2, if_neg (by rw [h3]; simp)]

/-- C4 witness: the document-level abort at the concrete two-component
project where exporting `A` raises. -/
theorem c4_component_error_witness :
    ¬ (none : Option (List Char)) = some (moduleContentHash [compA, compB]) ∧
    (exportLoop hostExportFailA (filesToSkip [compA, compB] [] emptyInput)
      [compA, compB] []).2.2 = false ∧
    exportDocModules hostExportFailA [compA, compB] [] none emptyInput =
      ([], none, (exportLoop hostExportFailA (filesToSkip [compA, compB] [] emptyInput)
        [compA, compB] []).2.1) :=
  ⟨by decide, by decide, c4_component_error_aborts hostExportFailA [compA, compB] [] none
    emptyInput (by decide) (by decide) (by decide)⟩

/-- C5 counterexample: a Form component (`Type == 3`) is outside the
conflict detection (`component.Type in [1, 2, 100]`), so its differing
local file `F.frm` is overwritten by the export pass although the
resolver was never asked and every console answer is the empty default. -/
theorem c5_counterexample :
    moduleDiffer ("x = 1".toList) compForm.code = true ∧
    alLookup fsForm ("F.frm".toList) = some ("x = 1".toList) ∧
    alLookup (exportDocModules hostExportOk [compForm] fsForm none emptyInput).2.2
      ("F.frm".toList) = some ("z = 3".toList) := by
  decide

/-- C5 (amended): for components of code-module kind (`Type` 1, 2 or
100) whose existing local file differs after normalization, the export
pass leaves the local file unchanged unless the prompt answered
overwrite-all or the per-file interactive answer was an explicit yes:
under any non-affirmative answer the file's content is preserved. -/
theorem c5_conflict_gate (hE : VComponent → Option (List Char)) (comps : List VComponent)
    (fs : Fs) (lastHash : Option (List Char)) (inp : ResolverInput) (c : VComponent)
    (loc : List Char)
    (hmem : c ∈ comps)
    (htype : isCodeType c.ctype = true)
    (hloc : alLookup fs (vcFileName c) = some loc)
    (hdiff : moduleDiffer loc c.code = true)
    (hnoover : ¬ parseMain inp.mainResponse = MainDecision.overwriteAll)
    (hnoyes : parseMain inp.mainResponse = MainDecision.interactive →
      parseYes (inp.perFile (vcFileName c)) = false) :
    alLookup (exportDocModules hE comps fs lastHash inp).2.2 (vcFileName c) = some loc := by
  have horph : orphanFile (comps.map (fun x => lowerStr x.name)) (vcFileName c) = false :=
    orphanFile_comp_false comps c hmem
  have hchanged : vcFileName c ∈ changedFiles comps fs :=
    mem_changedFiles comps fs c loc hmem hloc htype hdiff
  have hchne : ¬ (changedFiles comps fs).isEmpty = true := by
    intro he
    cases hx : changedFiles comps fs with
    | nil =>
      rw [hx] at hchanged
      simp at hchanged
    | cons a t =>
      rw [hx] at he
      simp at he
  simp only [exportDocModules]
  by_cases hsc : lastHash = some (moduleContentHash comps)
  · rw [if_pos hsc]
    show alLookup (syncDeletedModules comps fs inp.deleteResponse) (vcFileName c) = some loc
    rw [syncDeleted_preserve comps fs _ _ horph]
    exact hloc
  · rw [if_neg hsc]
    by_cases hcan : parseMain inp.mainResponse = MainDecision.cancel
    · rw [if_pos ⟨hchne, hcan⟩]
      exact hloc
    · rw [if_neg (fun hx => hcan hx.2)]
      have hskip : vcFileName c ∈ filesToSkip comps fs inp := by
        rw [filesToSkip, if_neg hchne]
        cases hpm : parseMain inp.mainResponse with
        | overwriteAll => exact absurd hpm hnoover
        | skipAll => exact hchanged
        | interactive => exact List.mem_filter.2 ⟨hchanged, by simp [hnoyes hpm]⟩
        | cancel => exact absurd hpm hcan
      by_cases hok : (exportLoop hE (filesToSkip comps fs inp) comps fs).2.2 = true
      · rw [if_pos hok]
        show alLookup (syncDeletedModules comps
          (exportLoop hE (filesToSkip comps fs inp) comps fs).2.1 inp.deleteResponse)
          (vcFileName c) = some loc
        rw [syncDeleted_preserve _ _ _ _ horph,
            exportLoop_skip_preserve hE (filesToSkip comps fs inp) comps fs (vcFileName c) hskip]
        exact hloc
      · rw [if_neg hok]
        show alLookup (exportLoop hE (filesToSkip comps fs inp) comps fs).2.1
          (vcFileName c) = some loc
        rw [exportLoop_skip_preserve hE _ comps fs (vcFileName c) hskip]
        exact hloc

/-- C5 witness: the conflict gate at the concrete module `M` with a
differing local file and the empty default console answer. -/
theorem c5_conflict_gate_witness :
    moduleDiffer ("b = 2".toList) compM.code = true ∧
    alLookup (exportDocModules hostExportOk [compM] fsM none emptyInput).2.2
      (vcFileName compM) = some ("b = 2".toList) :=
  ⟨by decide, c5_conflict_gate hostExportOk [compM] fsM none emptyInput compM ("b = 2".toList)
    (by decide) (by decide) (by decide) (by decide) (by decide) (by decide)⟩

/-- C6: when the document's conflict prompt is answered with cancel (the
default), the pass for that document aborts: it writes and deletes
nothing (the folder is returned unchanged), returns no hash, the
`all_hashes` dictionary carries no entry for that folder (so the stored
`last_hash` is not updated), and the passes of the other documents are
computed from their own data and console answers only. -/
theorem c6_cancel_no_state_change (hE : VComponent → Option (List Char))
    (docs : List DocState) (lastHashes : List (List Char × List Char))
    (inputs : List Char → ResolverInput) (d : DocState)
    (hmem : d ∈ docs)
    (hfolders : (docs.map DocState.folder).Nodup)
    (hnoskip : ¬ alLookup lastHashes d.folder = some (moduleContentHash d.comps))
    (hchanged : ¬ (changedFiles d.comps d.fs).isEmpty = true)
    (hcancel : parseMain ((inputs d.folder).mainResponse) = MainDecision.cancel) :
    docPass hE lastHashes inputs d = ⟨d.folder, [], none, d.fs⟩ ∧
    alLookup (allHashesOf (exportModulesResults hE docs lastHashes inputs)) d.folder = none ∧
    (∀ (inputs2 : List Char → ResolverInput),
      (∀ k, ¬ k = d.folder → inputs2 k = inputs k) →
      ∀ e ∈ docs, ¬ e.folder = d.folder →
        docPass hE lastHashes inputs2 e = docPass hE lastHashes inputs e) := by
  have hpass : docPass hE lastHashes inputs d = ⟨d.folder, [], none, d.fs⟩ := by
    simp only [docPass, exportDocModules]
    rw [if_neg hnoskip, if_pos ⟨hchanged, hcancel⟩]
  refine ⟨hpass, ?_, ?_⟩
  · apply alLookup_eq_none_of_no_key
    intro e he hk
    rw [allHashesOf] at he
    obtain ⟨r, hrf, hre⟩ := List.mem_map.1 he
    obtain ⟨hrmem, hrpred⟩ := List.mem_filter.1 hrf
    rw [exportModulesResults] at hrmem
    obtain ⟨dd, hdd, hddr⟩ := List.mem_map.1 hrmem
    have hfold : r.folder = d.folder := by
      rw [← hre] at hk
      simpa using hk
    have hddf : dd.folder = d.folder := by
      rw [← hddr] at hfold
      simpa [docPass] using hfold
    have hdd_eq : dd = d :=
      nodup_map_inj DocState.folder docs hfolders dd d hdd hmem (by rw [hddf])
    subst hdd_eq
    rw [hpass] at hddr
    rw [← hddr] at hrpred
    simp at hrpred
  · intro inputs2 hinp e hemem hene
    simp only [docPass]
    rw [hinp e.folder hene]

/-- C6 witness: a two-document run in which the first document's prompt
is cancelled by the empty default answer. -/
theorem c6_cancel_witness :
    docPass hostExportOk [] (fun _ => emptyInput) docCancel =
      ⟨"doc1".toList, [], none, fsM⟩ ∧
    alLookup (allHashesOf (exportModulesResults hostExportOk [docCancel, docOther] []
      (fun _ => emptyInput))) ("doc1".toList) = none := by
  have h := c6_cancel_no_state_change hostExportOk [docCancel, docOther] []
    (fun _ => emptyInput) docCancel (by decide) (by decide) (by decide) (by decide) (by decide)
  exact ⟨h.1, h.2.1⟩

/-- C7: when the stored `last_hash` equals the current fingerprint, the
pass exports zero files, returns the very same hash value, and its only
file-system effect is the deletion-sync check (`_sync_deleted_modules`),
which never writes or changes a file — every file afterwards either
keeps its previous content or is gone. -/
theorem c7_noop_pass (hE : VComponent → Option (List Char)) (comps : List VComponent)
    (fs : Fs) (inp : ResolverInput) (lastHash : Option (List Char))
    (h : lastHash = some (moduleContentHash comps)) :
    exportDocModules hE comps fs lastHash inp =
      ([], some (moduleContentHash comps), syncDeletedModules comps fs inp.deleteResponse) ∧
    (∀ f, alLookup (syncDeletedModules comps fs inp.deleteResponse) f = alLookup fs f ∨
      alLookup (syncDeletedModules comps fs inp.deleteResponse) f = none) := by
  constructor
  · simp only [exportDocModules]
    rw [if_pos h]
  · intro f
    exact syncDeleted_lookup comps fs inp.deleteResponse f

/-- C7 witness: the no-op pass at the concrete document `[compM]`. -/
theorem c7_noop_witness :
    (some (moduleContentHash [compM]) : Option (List Char)) =
      some (moduleContentHash [compM]) ∧
    exportDocModules hostExportOk [compM] fsM (some (moduleContentHash [compM])) emptyInput =
      ([], some (moduleContentHash [compM]), syncDeletedModules [compM] fsM []) :=
  ⟨rfl, (c7_noop_pass hostExportOk [compM] fsM emptyInput
    (some (moduleContentHash [compM])) rfl).1⟩

/-- C8 counterexample: a component whose code module has zero lines is
skipped by `_module_content_hash`, so the fingerprint is not the digest
of the concatenation over EVERY component: for the single empty-bodied
component `A` the code digests the empty string while the claim's
formula digests `A:`. -/
theorem c8_counterexample :
    ¬ moduleContentHash [⟨"A".toList, 1, []⟩] =
      digestModel (specHashInput [⟨"A".toList, 1, []⟩]) := by
  decide

/-- C8 (amended): the fingerprint is the digest of the concatenation of
`name + ":" + rawBody` over every component with a non-empty body
(zero-line components are omitted); consequently two documents with
equal per-component `(name, body)` sequences have equal fingerprints,
and the fingerprint changes whenever a single component's body changes
while the others stay fixed. -/
theorem c8_fingerprint :
    (∀ comps : List VComponent, moduleContentHash comps =
      digestModel (specHashInput (comps.filter (fun c => !c.code.isEmpty)))) ∧
    (∀ A B : List VComponent,
      A.map (fun c => (c.name, c.code)) = B.map (fun c => (c.name, c.code)) →
      moduleContentHash A = moduleContentHash B) ∧
    (∀ (pre post : List VComponent) (c c2 : VComponent), c.name = c2.name →
      ¬ c.code = c2.code →
      ¬ moduleContentHash (pre ++ c :: post) = moduleContentHash (pre ++ c2 :: post)) := by
  refine ⟨?_, ?_, ?_⟩
  · intro comps
    rw [moduleContentHash, hashInputOf, hashPartsOf_eq_map_filter, specHashInput]
  · intro A B h
    rw [moduleContentHash, moduleContentHash, hashInputOf, hashInputOf,
      hashPartsOf_congr A B h]
  · exact moduleContentHash_single_change

/-- C8 witness: changing the single body `x` to `y` changes the
fingerprint. -/
theorem c8_fingerprint_witness :
    ("A".toList : List Char) = "A".toList ∧
    ¬ ("x".toList : List Char) = "y".toList ∧
    ¬ moduleContentHash [⟨"A".toList, 1, "x".toList⟩] =
      moduleContentHash [⟨"A".toList, 1, "y".toList⟩] :=
  ⟨rfl, by decide, c8_fingerprint.2.2 [] [] ⟨"A".toList, 1, "x".toList⟩
    ⟨"A".toList, 1, "y".toList⟩ rfl (by decide)⟩

/-- C9: when the target component is of DocumentModule kind
(`Type == 100`) and the force flag is off, `import_module` reports a
refusal (returns `False`) and the host project is left exactly as it
was: no component removed, replaced, or re-coded. -/
theorem c9_document_module_gate (stem content : List Char) (comps : List VComponent)
    (c : VComponent) (hfind : findComponent comps stem = some c) (htype : c.ctype = 100) :
    (importModule false stem content comps).1 = false ∧
    (importModule false stem content comps).2.1 = comps := by
  simp only [importModule, hfind]
  rw [if_pos htype]
  simp

/-- C9 witness: the gate at the concrete document module
`ThisDocument`. -/
theorem c9_document_module_witness :
    findComponent [compDoc] ("ThisDocument".toList) = some compDoc ∧
    compDoc.ctype = 100 ∧
    (importModule false ("ThisDocument".toList) ("x = 1".toList) [compDoc]).1 = false ∧
    (importModule false ("ThisDocument".toList) ("x = 1".toList) [compDoc]).2.1 =
      [compDoc] := by
  have h := c9_document_module_gate ("ThisDocument".toList) ("x = 1".toList) [compDoc] compDoc
    (by decide) (by decide)
  exact ⟨by decide, by decide, h.1, h.2⟩

/-- C10: `_normalize_content` is idempotent, and therefore the
comparator's verdict (`are_different`) is unchanged by normalizing
either argument first. -/
theorem c10_normalize_idem :
    (∀ s : List Char, normalizeContent (normalizeContent s) = normalizeContent s) ∧
    (∀ a b : List Char, moduleDiffer (normalizeContent a) b = moduleDiffer a b) ∧
    (∀ a b : List Char, moduleDiffer a (normalizeContent b) = moduleDiffer a b) := by
  refine ⟨normalizeContent_idem, ?_, ?_⟩
  · intro a b
    rw [moduleDiffer, moduleDiffer, normalizeContent_idem a]
  · intro a b
    rw [moduleDiffer, moduleDiffer, normalizeContent_idem b]


end Visiowings
